import Mathlib

/-!
Verification development for the card resolution and matching engine of
`agent-of-the-king.py`: a shallow embedding of the query parser
(`parse_level_search`), name normalization (`_norm`), the catalog store
(`_build_name_index` / `load_cards`), the three-tier match resolver
(`find_matching_cards`), and the deck composer (`build_deck_embeds`),
together with theorems about their behaviour.

Strings are modelled over their character lists; `str.strip()` is
a structural `pyStrip`, `str.lower()` maps `Char.toLower` (ASCII case folding, which
covers the catalog data in scope), and Python's stable `list.sort` is
`List.insertionSort`.  The fuzzy scorer (`rapidfuzz.fuzz.token_set_ratio`)
is an external library collaborator and is passed in as an abstract
`scorer : String → String → Nat` valued in `[0, 100]`.
-/

namespace AgentOfTheKing

/-- The ASCII whitespace characters `str.strip()` removes. -/
def pyIsSpace (c : Char) : Bool :=
  c == ' ' || c == '\t' || c == '\n' || c == '\x0d' || c == '\x0b' || c == '\x0c'

/-- `str.strip()` on a character list. -/
def trimChars (cs : List Char) : List Char :=
  ((cs.dropWhile pyIsSpace).reverse.dropWhile pyIsSpace).reverse

/-- `str.strip()`. -/
def pyStrip (s : String) : String :=
  String.mk (trimChars s.data)

/-- `str.lower()` on the ASCII range, character-list based. -/
def pyToLower (s : String) : String :=
  String.mk (s.data.map Char.toLower)

/-- Prefix test on character lists. -/
def startsList : List Char → List Char → Bool
  | [], _ => true
  | _ :: _, [] => false
  | a :: as, b :: bs => a == b && startsList as bs

/-- Containment test on character lists (Python's `needle in hay`). -/
def subList : List Char → List Char → Bool
  | ns, [] => startsList ns []
  | ns, h :: hs => startsList ns (h :: hs) || subList ns hs

/-- `needle in hay` for strings. -/
def isSubstring (needle hay : String) : Bool :=
  subList needle.data hay.data

/-- `_norm`: lowercase, then strip every character that is not an ASCII
letter or digit (`re.sub(r'[^a-z0-9]+', '', s.lower())`). -/
def _norm (s : String) : String :=
  String.mk ((s.data.map Char.toLower).filter
    (fun c => decide (('a' ≤ c ∧ c ≤ 'z') ∨ ('0' ≤ c ∧ c ≤ '9'))))

/-- Digit run with single underscores between digits, continuing an
accumulated value (the tail of `int()`'s accepted literal grammar). -/
def parseDigits : List Char → Nat → Option Nat
  | [], acc => some acc
  | '_' :: c :: rest, acc =>
      if c.isDigit then parseDigits rest (acc * 10 + (c.toNat - 48)) else none
  | ['_'], _ => none
  | c :: rest, acc =>
      if c.isDigit then parseDigits rest (acc * 10 + (c.toNat - 48)) else none

/-- Nonempty digit run (first character must be a digit). -/
def parseUInt : List Char → Option Nat
  | [] => none
  | c :: rest => if c.isDigit then parseDigits rest (c.toNat - 48) else none

/-- Python `int(s)` on an already-stripped string: optional sign followed by
ASCII digits (with `int()`'s underscore grouping). -/
def parsePyInt (s : String) : Option Int :=
  match s.data with
  | '+' :: rest => (parseUInt rest).map Int.ofNat
  | '-' :: rest => (parseUInt rest).map (fun n => -(n : Int))
  | cs => (parseUInt cs).map Int.ofNat

/-- The data captured by the `level_filter` closure of `parse_level_search`:
the (lowercased, truncated) search term and the raw parenthetical content. -/
structure LevelFilter where
  base : String
  level : String
deriving DecidableEq, Repr

/-- A card record, restricted to the attributes the resolution and
composition code reads.  Absent `name`/`code`/`url` behave as `""`, absent
`xp` behaves as `0` (the code reads them via `get(..) or`-style defaults),
`slot` keeps explicit absence because `get("slot", default)` is used with
two different defaults. -/
structure Card where
  code : String
  name : String
  xp : Nat
  type_code : String
  permanent : Bool
  slot : Option String
  url : String
deriving DecidableEq, Repr

/-- Scan for the match of `re.search(r"\((.+?)\)$", s)`: the leftmost `'('`
whose stretch up to the final `')'` is nonempty and newline-free (`.` does
not cross newlines); returns its index and that stretch.  Only called when
the string ends in `')'`. -/
def scanParen (n : Nat) : List Char → Nat → Option (Nat × List Char)
  | [], _ => none
  | c :: rest, i =>
      if c = '(' then
        let content := rest.take (n - i - 2)
        if content.length > 0 && !content.contains '\n' then some (i, content)
        else scanParen n rest (i + 1)
      else scanParen n rest (i + 1)

/-- `parse_level_search(term)`: split a token into the base search term and
an optional level qualifier.  The regex runs on `term.strip()` while the
base is sliced out of the original `term` using the match index, exactly as
the source does. -/
def parse_level_search (term : String) : String × Option LevelFilter :=
  let s := pyStrip term
  match (if s.data.getLast? = some ')' then scanParen s.data.length s.data 0 else none) with
  | none => (pyToLower s, none)
  | some (i, content) =>
      let level := String.mk (trimChars content)
      let search_term := pyToLower (String.mk (trimChars (term.data.take i)))
      (search_term, some ⟨search_term, level⟩)

/-- The body of the `level_filter` closure: `xp` is `card.get("xp", 0) or 0`;
`"u"` means any upgraded print, an integer means that exact level, and any
other content degenerates to the name-containment check alone. -/
def level_filter (lf : LevelFilter) (card : Card) : Bool :=
  let xp := card.xp
  if pyToLower lf.level = "u" then
    isSubstring lf.base (pyToLower card.name) && decide (0 < xp)
  else
    match parsePyInt lf.level with
    | some n => isSubstring lf.base (pyToLower card.name) && decide ((xp : Int) = n)
    | none => isSubstring lf.base (pyToLower card.name)

/-- `not level_fn or level_fn(c)`. -/
def matchesLf (lf : Option LevelFilter) (c : Card) : Bool :=
  match lf with
  | none => true
  | some f => level_filter f c

/-! ## Catalog store -/

/-- `idx.setdefault(n, []).append(c)` on an insertion-ordered association
list: extend the list at an existing key in place, or add the key at the
end. -/
def idxAppend : List (String × List Card) → String → Card → List (String × List Card)
  | [], n, c => [(n, [c])]
  | (k, vs) :: rest, n, c =>
      if k = n then (k, vs ++ [c]) :: rest
      else (k, vs) :: idxAppend rest n c

/-- `_build_name_index(cards)`: normalized name → all printings, skipping
cards whose normalized name is empty. -/
def buildNameIndex (cards : List Card) : List (String × List Card) :=
  cards.foldl
    (fun idx c =>
      let n := _norm c.name
      if n = "" then idx else idxAppend idx n c)
    []

/-- First value at a key (`dict.get`). -/
def lookupIdx (idx : List (String × List Card)) (k : String) : Option (List Card) :=
  match idx with
  | [] => none
  | (k', vs) :: rest => if k' = k then some vs else lookupIdx rest k

/-- The module-level catalog state: `CARDS`, `NAME_INDEX` and `NAME_KEYS`. -/
structure CatalogState where
  cards : List Card
  index : List (String × List Card)
  keys : List String
deriving Repr

/-- The state produced by `_refresh_name_index` for a card list:
`NAME_INDEX = _build_name_index(CARDS)`, `NAME_KEYS = list(NAME_INDEX.keys())`. -/
def mkState (cards : List Card) : CatalogState :=
  let idx := buildNameIndex cards
  ⟨cards, idx, idx.map Prod.fst⟩

/-- The failure signalled by the fetch collaborator. -/
structure FetchError where
  msg : String
deriving DecidableEq, Repr

/-- `load_cards()`: replace the snapshot from the fetch collaborator's
result and rebuild the derived indexes, or propagate the failure with the
state untouched (the exception fires before any assignment to `CARDS`). -/
def load_cards (fetch : Except FetchError (List Card)) (st : CatalogState) :
    CatalogState × Option FetchError :=
  match fetch with
  | .error e => (st, some e)
  | .ok cards => (mkState cards, none)

/-! ## Match resolver -/

/-- `if code and code not in seen_codes: seen_codes.add(code); matches.append(c)`. -/
def appendIfNew (acc : List Card × List String) (c : Card) : List Card × List String :=
  if c.code ≠ "" ∧ c.code ∉ acc.2 then (acc.1 ++ [c], c.code :: acc.2) else acc

/-- Run `appendIfNew` over a pick list. -/
def appendAllNew (acc : List Card × List String) (cs : List Card) : List Card × List String :=
  cs.foldl appendIfNew acc

/-- Exact stage candidates: normalized name equal to the normalized base,
restricted by the level filter when given. -/
def exactCandidates (cards : List Card) (base_norm : String) (lf : Option LevelFilter) :
    List Card :=
  cards.filter (fun c => _norm c.name == base_norm && matchesLf lf c)

/-- `min(l, key=lambda c: c.get('xp') or 0)`: first element of minimum xp. -/
def minByXp : List Card → Option Card
  | [] => none
  | c :: rest => some (rest.foldl (fun best d => if d.xp < best.xp then d else best) c)

/-- One step of the substring stage's `by_name_lowest` maintenance:
`if cur is None or c.xp < cur.xp: by_name_lowest[key] = c`, keeping the
key's insertion position. -/
def updatePool : List (String × Card) → String → Card → List (String × Card)
  | [], k, c => [(k, c)]
  | (k', cur) :: rest, k, c =>
      if k' = k then (if c.xp < cur.xp then (k', c) else (k', cur)) :: rest
      else (k', cur) :: updatePool rest k c

/-- The substring stage's per-card condition:
`base in name.lower() and (not level_fn or level_fn(c))`. -/
def poolCond (base : String) (lf : Option LevelFilter) (c : Card) : Bool :=
  isSubstring base (pyToLower c.name) && matchesLf lf c

/-- Substring stage: for each card whose display name contains the base
case-insensitively and which passes the level filter, keep one lowest-xp
record per distinct normalized name, in key insertion order. -/
def substringPool (cards : List Card) (base : String) (lf : Option LevelFilter) :
    List (String × Card) :=
  cards.foldl
    (fun m c => if poolCond base lf c then updatePool m (_norm c.name) c else m)
    []

/-- `process.extractOne(query, choices, scorer=...)`: the first choice of
maximum score, or `None` for an empty choice list. -/
def extractOne (scorer : String → String → Nat) (query : String) :
    List String → Option (String × Nat)
  | [] => none
  | k :: ks =>
      some (ks.foldl
        (fun best k' => if scorer query k' > best.2 then (k', scorer query k') else best)
        (k, scorer query k))

/-- Fuzzy stage: best key at score ≥ 80, its print variants filtered by the
level filter when given, lowest xp picked if any remain. -/
def fuzzyPick (scorer : String → String → Nat) (st : CatalogState)
    (base_norm : String) (lf : Option LevelFilter) : Option Card :=
  match extractOne scorer base_norm st.keys with
  | none => none
  | some (best_key, score) =>
      if 80 ≤ score then
        let variants := (lookupIdx st.index best_key).getD []
        let variants :=
          match lf with
          | none => variants
          | some f => variants.filter (level_filter f)
        minByXp variants
      else none

/-- Per-token body of the `for q in queries` loop of `find_matching_cards`:
skip blank tokens, parse, then exact → substring → fuzzy with early exit. -/
def processToken (scorer : String → String → Nat) (st : CatalogState)
    (acc : List Card × List String) (q0 : String) : List Card × List String :=
  let q := pyStrip q0
  if q = "" then acc
  else
    let p := parse_level_search q
    let base := p.1
    let lf := p.2
    let base_norm := _norm base
    let exacts := exactCandidates st.cards base_norm lf
    if exacts.isEmpty then
      let pool := substringPool st.cards base lf
      if pool.isEmpty then
        match fuzzyPick scorer st base_norm lf with
        | none => acc
        | some pick => appendIfNew acc pick
      else appendAllNew acc (pool.map Prod.snd)
    else
      appendAllNew acc
        (match lf with
         | none => (minByXp exacts).toList
         | some _ => exacts)

/-- `find_matching_cards(queries)`: left-to-right accumulation into one
deduplicated-by-code ordered match list. -/
def find_matching_cards (scorer : String → String → Nat) (st : CatalogState)
    (queries : List String) : List Card :=
  (queries.foldl (processToken scorer st) ([], [])).1

/-! ## Deck composer -/

/-- A rendered display unit (the data of a `discord.Embed` the composer
fills in). -/
structure Embed where
  title : String
  url : String
  description : String
deriving DecidableEq, Repr

/-- A fetched deck: investigator code, name, version, the card-code →
quantity map, and the link data. -/
structure Deck where
  investigator_code : String
  name : String
  version : String
  slots : List (String × Nat)
  kind : String
  id : String
deriving DecidableEq, Repr

/-- `slots.get(code, 1)`. -/
def slotQty (slots : List (String × Nat)) (code : String) : Nat :=
  match slots with
  | [] => 1
  | (k, v) :: rest => if k = code then v else slotQty rest code

/-- One card line: quantity, bracketed name, level suffix when `xp` is
truthy, and the link. -/
def lineOf (slots : List (String × Nat)) (card : Card) : String :=
  toString (slotQty slots card.code) ++ " × [" ++ card.name ++ "]"
    ++ (if card.xp ≠ 0 then " (" ++ toString card.xp ++ ")" else "")
    ++ " (" ++ card.url ++ ")"

/-- Python code-point comparison of two strings, as a Nat-list
lexicographic order. -/
def lexLtN : List Nat → List Nat → Bool
  | [], [] => false
  | [], _ :: _ => true
  | _ :: _, [] => false
  | a :: as, b :: bs => if a < b then true else if a = b then lexLtN as bs else false

/-- The code points of a string. -/
def codePts (s : String) : List Nat := s.data.map Char.toNat

/-- `a < b` on Python strings. -/
def pyStrLt (a b : String) : Bool := lexLtN (codePts a) (codePts b)

/-- The sort key of the Asset sort: `e.get("slot", "zzzzzz")`. -/
def slotKey (c : Card) : String := c.slot.getD "zzzzzz"

/-- The comparison the stable sort establishes: not strictly greater. -/
def slotLe (a b : Card) : Prop := pyStrLt (slotKey b) (slotKey a) = false

instance : DecidableRel slotLe := fun a b => by
  unfold slotLe; infer_instance

/-- `cat_cards.sort(key=lambda e: e.get("slot", "zzzzzz"))`: a stable sort
by slot key. -/
def sortBySlot (cat_cards : List Card) : List Card :=
  List.insertionSort slotLe cat_cards

/-- The Asset body builder: a fold over the sorted cards that emits a slot
sub-heading whenever the slot (defaulted to `"Other"`) differs from the
previous card's. -/
def assetPartsAux (slots : List (String × Nat)) :
    List Card → Option String → List String
  | [], _ => []
  | c :: rest, last =>
      let slotv := c.slot.getD "Other"
      if last ≠ some slotv then
        ("\n**" ++ slotv ++ ":**") :: ("- " ++ lineOf slots c)
          :: assetPartsAux slots rest (some slotv)
      else ("- " ++ lineOf slots c) :: assetPartsAux slots rest last

/-- The non-Asset body builder: one line per card in catalog order. -/
def plainParts (slots : List (String × Nat)) (cat_cards : List Card) : List String :=
  cat_cards.map (fun c => "- " ++ lineOf slots c)

/-- The line list of one category's body. -/
def partsFor (category : String) (slots : List (String × Nat))
    (cat_cards : List Card) : List String :=
  if category = "Asset" then assetPartsAux slots (sortBySlot cat_cards) none
  else plainParts slots cat_cards

/-- `"\n".join(parts)`. -/
def joinNL : List String → String
  | [] => ""
  | [x] => x
  | x :: xs => x ++ "\n" ++ joinNL xs

/-- The greedy chunking loop over the line list: flush the buffer whenever
adding the next line (plus its separator) would push the running count past
1500, then append the line unconditionally. -/
def chunkAux : List String → List String → Nat → List (List String)
  | [], buf, _ => if buf.isEmpty then [] else [buf]
  | line :: rest, buf, count =>
      if count + line.length + 1 > 1500 then
        buf :: chunkAux rest [line] (line.length + 1)
      else chunkAux rest (buf ++ [line]) (count + line.length + 1)

/-- The chunk list (as line lists) the splitting branch produces. -/
def chunkBufs (parts : List String) : List (List String) :=
  chunkAux parts [] 0

/-- The accumulated length of a chunk: line lengths plus one separator
each, exactly the quantity the chunking loop tracks in `count`. -/
def sumLens (b : List String) : Nat :=
  (b.map (fun l => l.length + 1)).sum

/-- The cards of one category: `permanent is True` for Permanent, matching
`type_code` and non-permanent otherwise. -/
def catCardsFor (category : String) (deck_cards : List Card) : List Card :=
  if category = "Permanent" then deck_cards.filter (fun c => c.permanent)
  else deck_cards.filter (fun c => c.type_code == pyToLower category && !c.permanent)

/-- One category's display units: nothing for an empty category, a single
embed when the body is within the 3800-character safety threshold, and
labeled chunks otherwise. -/
def categorySection (category : String) (slots : List (String × Nat))
    (cat_cards : List Card) : List Embed :=
  if cat_cards.isEmpty then []
  else
    let parts := partsFor category slots cat_cards
    let text := joinNL parts
    if text.length ≤ 3800 then [⟨category ++ "s", "", text⟩]
    else
      let bufs := chunkBufs parts
      bufs.enum.map
        (fun p => ⟨category ++ "s [" ++ toString (p.1 + 1) ++ "/"
          ++ toString bufs.length ++ "]", "", joinNL p.2⟩)

/-- The fixed category order of the composer. -/
def categories : List String :=
  ["Asset", "Permanent", "Event", "Skill", "Treachery", "Enemy"]

/-- The category sections for a list of category names. -/
def deckSectionsOver (cats : List String) (slots : List (String × Nat))
    (deck_cards : List Card) : List Embed :=
  (cats.map (fun cat => categorySection cat slots (catCardsFor cat deck_cards))).flatten

/-- The header embed of a deck rendering. -/
def deckHeader (cards : List Card) (deck : Deck) : Embed :=
  let gators := cards.filter (fun c => c.code == deck.investigator_code)
  let inv_name := match gators with | [] => "Investigator" | g :: _ => g.name
  ⟨inv_name ++ ": " ++ deck.name ++ " " ++ deck.version,
   (if deck.kind = "deck" then "https://arkhamdb.com/deck/view/" ++ deck.id
    else "https://arkhamdb.com/decklist/view/" ++ deck.id),
   ""⟩

/-- The cards of the catalog whose code appears among the deck's slots. -/
def deckCards (cards : List Card) (deck : Deck) : List Card :=
  cards.filter (fun c => (deck.slots.map Prod.fst).contains c.code)

/-- `build_deck_embeds(deck)`: the header followed by the category
sections in fixed order. -/
def build_deck_embeds (cards : List Card) (deck : Deck) : List Embed :=
  deckHeader cards deck :: deckSectionsOver categories deck.slots (deckCards cards deck)

/-- The maximal runs of consecutive cards sharing a heading slot
(`card.get("slot", "Other")`), used to state the sub-grouping property of
the Asset body. -/
def slotRuns : List Card → List (String × List Card)
  | [] => []
  | c :: rest =>
      let s := c.slot.getD "Other"
      match slotRuns rest with
      | [] => [(s, [c])]
      | (s2, run) :: more =>
          if s = s2 then (s, c :: run) :: more
          else (s, [c]) :: (s2, run) :: more

/-- Rendering of a run list: one slot sub-heading per run, followed by the
run's card lines. -/
def renderRuns (slots : List (String × Nat)) (rs : List (String × List Card)) : List String :=
  (rs.map
    (fun r => ("\n**" ++ r.1 ++ ":**") :: r.2.map (fun c => "- " ++ lineOf slots c))).flatten

/-- Run-structured rendering of the Asset body: one slot sub-heading per
maximal same-slot run, followed by that run's card lines. -/
def runsRender (slots : List (String × Nat)) (cards : List Card) : List String :=
  renderRuns slots (slotRuns cards)

/-! ## Concrete fixtures used by witnesses and counterexamples -/

/-- A scorer that never fires (fuzzy stage inert). -/
def zScorer : String → String → Nat := fun _ _ => 0

/-- A scorer giving the key `"lucky"` exactly 80 points. -/
def scorer80 : String → String → Nat := fun _ k => if k = "lucky" then 80 else 0

/-- A scorer giving the key `"lucky"` exactly 79 points. -/
def scorer79 : String → String → Nat := fun _ k => if k = "lucky" then 79 else 0

/-- Three prints of the card `"Name"` at xp 0, 2 and 3. -/
def nCard0 : Card := ⟨"n0", "Name", 0, "asset", false, none, ""⟩

/-- See `nCard0`. -/
def nCard2 : Card := ⟨"n2", "Name", 2, "asset", false, none, ""⟩

/-- See `nCard0`. -/
def nCard3 : Card := ⟨"n3", "Name", 3, "asset", false, none, ""⟩

/-- The catalog holding the three `"Name"` prints. -/
def nameCatalog : List Card := [nCard0, nCard2, nCard3]

/-- Two prints of `"Lucky!"` (normalized key `"lucky"`). -/
def luckyCard0 : Card := ⟨"l0", "Lucky!", 0, "event", false, none, ""⟩

/-- See `luckyCard0`. -/
def luckyCard2 : Card := ⟨"l2", "Lucky!", 2, "event", false, none, ""⟩

/-- The catalog holding the two `"Lucky!"` prints. -/
def luckyCatalog : List Card := [luckyCard0, luckyCard2]

/-- Two prints of `"Foo"` at xp 0 and 3. -/
def fooCard0 : Card := ⟨"f0", "Foo", 0, "asset", false, none, ""⟩

/-- See `fooCard0`. -/
def fooCard3 : Card := ⟨"f3", "Foo", 3, "asset", false, none, ""⟩

/-- The catalog holding the two `"Foo"` prints. -/
def fooCatalog : List Card := [fooCard0, fooCard3]

/-- A 3790-character card name, long enough that its single body line
pushes a category one character past the 3800 safety threshold. -/
def bigName : String := String.mk (List.replicate 3790 'a')

/-- The event card carrying `bigName`. -/
def bigCard : Card := ⟨"c1", bigName, 0, "event", false, none, ""⟩

/-- A deck holding one copy of `bigCard`. -/
def bigDeck : Deck := ⟨"", "", "", [("c1", 1)], "deck", "1"⟩

/-- The single body line the `bigCard` deck produces. -/
def bigLine : String := "- " ++ lineOf bigDeck.slots bigCard

/-- A 95-character card name whose body line is 106 characters. -/
def midName : String := String.mk (List.replicate 95 'b')

/-- The event card carrying `midName`. -/
def midCard : Card := ⟨"m1", midName, 0, "event", false, none, ""⟩

/-- The slots map of the `midCard` deck. -/
def midSlots : List (String × Nat) := [("m1", 1)]

/-- Forty copies of `midCard`: a 4279-character category body all of whose
lines are short. -/
def midCards : List Card := List.replicate 40 midCard

/-- The single body line each `midCard` copy produces. -/
def midLine : String := "- " ++ lineOf midSlots midCard

/-- An asset fixture: slots Hand, none, Ally in catalog order. -/
def assetHand : Card := ⟨"h", "H", 0, "asset", false, some "Hand", ""⟩

/-- See `assetHand`. -/
def assetNone : Card := ⟨"n", "N", 0, "asset", false, none, ""⟩

/-- See `assetHand`. -/
def assetAlly : Card := ⟨"a", "A", 0, "asset", false, some "Ally", ""⟩

/-- The asset fixture list. -/
def assetCards : List Card := [assetHand, assetNone, assetAlly]

/-- A one-card deck catalog for the category-placement witness. -/
def skillFreeCards : List Card :=
  [⟨"e1", "E", 0, "event", false, none, ""⟩,
   ⟨"p1", "P", 0, "skill", true, none, ""⟩]

/-- A deck over `skillFreeCards` (the `"skill"`-typed card is permanent, so
no non-permanent skill card exists). -/
def skillFreeDeck : Deck := ⟨"", "", "", [("e1", 2), ("p1", 1)], "deck", "1"⟩

/-! ## Pagination lemmas (C6) -/

theorem chunkAux_bounded : ∀ (parts buf : List String) (count : Nat),
    (∀ l ∈ parts, l.length + 1 ≤ 1500) → count = sumLens buf → count ≤ 1500 →
    ∀ b ∈ chunkAux parts buf count, sumLens b ≤ 1500
  | [], buf, count, _, hc, hb, b, hmem => by
      unfold chunkAux at hmem
      by_cases he : buf.isEmpty
      · rw [if_pos he] at hmem
        exact absurd hmem (List.not_mem_nil b)
      · rw [if_neg he] at hmem
        rw [List.mem_singleton.1 hmem]
        omega
  | line :: rest, buf, count, h, hc, hb, b, hmem => by
      unfold chunkAux at hmem
      by_cases hcond : count + line.length + 1 > 1500
      · rw [if_pos hcond] at hmem
        rcases List.mem_cons.1 hmem with rfl | hmem
        · omega
        · exact chunkAux_bounded rest [line] (line.length + 1)
            (fun l hl => h l (List.mem_cons_of_mem _ hl))
            (by simp [sumLens])
            (h line (List.mem_cons_self _ _)) b hmem
      · rw [if_neg hcond] at hmem
        refine chunkAux_bounded rest (buf ++ [line]) (count + line.length + 1)
          (fun l hl => h l (List.mem_cons_of_mem _ hl)) ?_ ?_ b hmem
        · simp [sumLens, hc]
          omega
        · omega

theorem chunkAux_total : ∀ (parts buf : List String) (count : Nat),
    ((chunkAux parts buf count).map sumLens).sum = sumLens buf + sumLens parts
  | [], buf, _ => by
      unfold chunkAux
      by_cases he : buf.isEmpty
      · rw [if_pos he]
        simp [List.isEmpty_iff.1 he, sumLens]
      · rw [if_neg he]
        simp [sumLens]
  | line :: rest, buf, count => by
      unfold chunkAux
      by_cases hcond : count + line.length + 1 > 1500
      · rw [if_pos hcond]
        have ih := chunkAux_total rest [line] (line.length + 1)
        simp only [List.map_cons, List.sum_cons, ih]
        simp [sumLens]
      · rw [if_neg hcond]
        have ih := chunkAux_total rest (buf ++ [line]) (count + line.length + 1)
        rw [ih]
        simp [sumLens]
        omega

theorem joinNL_length : ∀ (parts : List String), parts ≠ [] →
    (joinNL parts).length + 1 = sumLens parts
  | [x], _ => by simp [joinNL, sumLens]
  | x :: y :: ys, _ => by
      have ih := joinNL_length (y :: ys) (by simp)
      have hx : joinNL (x :: y :: ys) = x ++ "\n" ++ joinNL (y :: ys) := rfl
      have hs : sumLens (x :: y :: ys) = (x.length + 1) + sumLens (y :: ys) := by
        simp [sumLens]
      have hn : ("\n" : String).length = 1 := rfl
      rw [hx, hs, String.length_append, String.length_append, hn]
      omega

theorem bigName_len : bigName.length = 3790 := by
  change (List.replicate 3790 'a').length = 3790
  rw [List.length_replicate]

theorem bigLine_len : bigLine.length = 3801 := by
  have h0 : bigLine.length = ("- " ++ (toString (slotQty bigDeck.slots bigCard.code)
      ++ " × [" ++ bigCard.name ++ "]"
      ++ (if bigCard.xp ≠ 0 then " (" ++ toString bigCard.xp ++ ")" else "")
      ++ " (" ++ bigCard.url ++ ")")).length := rfl
  have e1 : toString (slotQty bigDeck.slots bigCard.code) = "1" := rfl
  have e2 : (if bigCard.xp ≠ 0 then " (" ++ toString bigCard.xp ++ ")" else "") = "" := rfl
  have e3 : bigCard.name = bigName := rfl
  have e4 : bigCard.url = "" := rfl
  rw [h0, e1, e2, e3, e4]
  simp only [String.length_append, bigName_len]
  decide

theorem bigParts : partsFor "Event" bigDeck.slots [bigCard] = [bigLine] := rfl

theorem bigJoin : joinNL [bigLine] = bigLine := rfl

theorem bigChunks : chunkBufs [bigLine] = [[], [bigLine]] := by
  simp only [chunkBufs, chunkAux, bigLine_len]
  norm_num

theorem bigSection : categorySection "Event" bigDeck.slots [bigCard]
    = (chunkBufs [bigLine]).enum.map
        (fun p => ⟨"Event" ++ "s [" ++ toString (p.1 + 1) ++ "/"
          ++ toString (chunkBufs [bigLine]).length ++ "]", "", joinNL p.2⟩) := by
  show (if ([bigCard] : List Card).isEmpty then ([] : List Embed) else _) = _
  rw [if_neg (by decide)]
  simp only [bigParts, bigJoin, bigLine_len]
  norm_num

theorem bigEventSection : categorySection "Event" bigDeck.slots [bigCard]
    = [⟨"Events [1/2]", "", ""⟩, ⟨"Events [2/2]", "", bigLine⟩] := by
  rw [bigSection, bigChunks]
  rfl

theorem bigEmbeds : (build_deck_embeds [bigCard] bigDeck).map (fun e => e.description.length)
    = [0, 0, 3801] := by
  have hdc : deckCards [bigCard] bigDeck = [bigCard] := rfl
  have h1 : categorySection "Asset" bigDeck.slots (catCardsFor "Asset" [bigCard]) = [] := rfl
  have h2 : categorySection "Permanent" bigDeck.slots (catCardsFor "Permanent" [bigCard]) = [] := rfl
  have h3 : categorySection "Skill" bigDeck.slots (catCardsFor "Skill" [bigCard]) = [] := rfl
  have h4 : categorySection "Treachery" bigDeck.slots (catCardsFor "Treachery" [bigCard]) = [] := rfl
  have h5 : categorySection "Enemy" bigDeck.slots (catCardsFor "Enemy" [bigCard]) = [] := rfl
  have h6 : catCardsFor "Event" [bigCard] = [bigCard] := rfl
  have hhd : (deckHeader [bigCard] bigDeck).description = "" := rfl
  simp only [build_deck_embeds, deckSectionsOver, categories, hdc, List.map_cons, List.map_nil,
    h1, h2, h3, h4, h5, h6, bigEventSection]
  simp only [List.flatten, List.append_nil, List.nil_append, List.map_cons, List.map_nil]
  rw [hhd, bigLine_len]
  rfl

/-- C6 (counterexample): on a deck whose one event card has a 3790-character
name, the Events body is 3801 characters (one past the 3800 threshold), the
category is split into two labeled chunk Sections, and the second chunk's
accumulated length is 3802 — the claim's bound "every chunk's accumulated
length never exceeds the per-chunk budget (1500)" is false here. -/
theorem claim_C6_counterexample :
    3800 < (joinNL (partsFor "Event" bigDeck.slots [bigCard])).length
  ∧ (categorySection "Event" bigDeck.slots [bigCard]).map Embed.title
      = ["Events [1/2]", "Events [2/2]"]
  ∧ (build_deck_embeds [bigCard] bigDeck).map (fun e => e.description.length) = [0, 0, 3801]
  ∧ ¬ (∀ b ∈ chunkBufs (partsFor "Event" bigDeck.slots [bigCard]), sumLens b ≤ 1500) := by
  refine ⟨?_, ?_, bigEmbeds, ?_⟩
  · rw [bigParts, bigJoin, bigLine_len]
    omega
  · rw [bigEventSection]
    rfl
  · rw [bigParts, bigChunks]
    intro h
    have hb := h [bigLine] (by simp)
    rw [show sumLens [bigLine] = bigLine.length + 1 by simp [sumLens], bigLine_len] at hb
    omega

/-- C6 (amended): for a nonempty category, a concatenated body of at most
3800 characters always yields exactly one Section (including at exactly
3800); a body over 3800 characters is split greedily, and — provided every
body line fits the per-chunk budget on its own (length + separator ≤ 1500)
— the split produces two or more chunk Sections, one Section per chunk,
with every chunk's accumulated length at most 1500.  (Without the
per-line proviso the bound fails, see the counterexample.) -/
theorem claim_C6_amended (category : String) (slots : List (String × Nat))
    (cat_cards : List Card) (hne : cat_cards ≠ []) :
    ((joinNL (partsFor category slots cat_cards)).length ≤ 3800 →
      (categorySection category slots cat_cards).length = 1)
  ∧ (3800 < (joinNL (partsFor category slots cat_cards)).length →
     (∀ l ∈ partsFor category slots cat_cards, l.length + 1 ≤ 1500) →
       2 ≤ (chunkBufs (partsFor category slots cat_cards)).length
     ∧ (categorySection category slots cat_cards).length
         = (chunkBufs (partsFor category slots cat_cards)).length
     ∧ ∀ b ∈ chunkBufs (partsFor category slots cat_cards), sumLens b ≤ 1500) := by
  have hie : cat_cards.isEmpty = false := by
    simpa using hne
  constructor
  · intro hle
    simp only [categorySection, hie, Bool.false_eq_true, if_false, if_pos hle]
    rfl
  · intro hgt hlines
    have hbound : ∀ b ∈ chunkBufs (partsFor category slots cat_cards), sumLens b ≤ 1500 :=
      chunkAux_bounded _ [] 0 hlines rfl (by omega)
    have hne2 : partsFor category slots cat_cards ≠ [] := by
      intro h0
      rw [h0] at hgt
      simp [joinNL] at hgt
    have htot : ((chunkBufs (partsFor category slots cat_cards)).map sumLens).sum
        = sumLens (partsFor category slots cat_cards) := by
      have := chunkAux_total (partsFor category slots cat_cards) [] 0
      simpa [sumLens] using this
    have hsum : 3802 ≤ sumLens (partsFor category slots cat_cards) := by
      have := joinNL_length _ hne2
      omega
    have h2 : 2 ≤ (chunkBufs (partsFor category slots cat_cards)).length := by
      rcases hb : chunkBufs (partsFor category slots cat_cards) with _ | ⟨b, _ | ⟨b2, bs⟩⟩
      · rw [hb] at htot
        simp at htot
        omega
      · rw [hb] at htot
        simp at htot
        have := hbound b (by rw [hb]; exact List.mem_singleton_self b)
        omega
      · simp
    refine ⟨h2, ?_, hbound⟩
    simp only [categorySection, hie, Bool.false_eq_true, if_false,
      if_neg (by omega : ¬ (joinNL (partsFor category slots cat_cards)).length ≤ 3800)]
    simp [List.length_map, List.enum_length]

theorem midLine_len : midLine.length = 106 := by
  have h0 : midLine.length = ("- " ++ (toString (slotQty midSlots midCard.code)
      ++ " × [" ++ midCard.name ++ "]"
      ++ (if midCard.xp ≠ 0 then " (" ++ toString midCard.xp ++ ")" else "")
      ++ " (" ++ midCard.url ++ ")")).length := rfl
  have e1 : toString (slotQty midSlots midCard.code) = "1" := rfl
  have e2 : (if midCard.xp ≠ 0 then " (" ++ toString midCard.xp ++ ")" else "") = "" := rfl
  have e3 : midCard.name = midName := rfl
  have e4 : midCard.url = "" := rfl
  have e5 : midName.length = 95 := by
    change (List.replicate 95 'b').length = 95
    rw [List.length_replicate]
  rw [h0, e1, e2, e3, e4]
  simp only [String.length_append, e5]
  decide

theorem midParts : partsFor "Event" midSlots midCards = List.replicate 40 midLine := by
  have h0 : partsFor "Event" midSlots midCards = plainParts midSlots midCards := rfl
  rw [h0]
  show (List.replicate 40 midCard).map (fun c => "- " ++ lineOf midSlots c) = _
  rw [List.map_replicate]
  rfl

theorem midPartsLen : 3800 < (joinNL (partsFor "Event" midSlots midCards)).length := by
  have hj := joinNL_length (partsFor "Event" midSlots midCards) (by rw [midParts]; simp)
  have hs : sumLens (partsFor "Event" midSlots midCards) = 4280 := by
    rw [midParts]
    simp [sumLens, List.map_replicate, List.sum_replicate, midLine_len]
  omega

/-- C6 (witness): the amended pagination theorem applied to two concrete
categories: a one-card Events category (106-character body) renders as one
Section, and a forty-card Events category (4279-character body, every line
106 characters) splits into at least two chunk Sections, one per chunk. -/
theorem claim_C6_witness :
    (categorySection "Event" midSlots [midCard]).length = 1
  ∧ 2 ≤ (chunkBufs (partsFor "Event" midSlots midCards)).length
  ∧ (categorySection "Event" midSlots midCards).length
      = (chunkBufs (partsFor "Event" midSlots midCards)).length := by
  have hsmall := (claim_C6_amended "Event" midSlots [midCard] (by decide)).1
  have hbig := (claim_C6_amended "Event" midSlots midCards (by decide)).2
    midPartsLen
    (by
      intro l hl
      rw [midParts] at hl
      rw [List.eq_of_mem_replicate hl, midLine_len]
      omega)
  refine ⟨hsmall ?_, hbig.1, hbig.2.1⟩
  have h1 : partsFor "Event" midSlots [midCard] = [midLine] := rfl
  have h2 : joinNL [midLine] = midLine := rfl
  rw [h1, h2, midLine_len]
  omega

/-! ## Catalog reload (C9) -/

/-- C9: when the fetch collaborator fails, `load_cards` returns the
previous snapshot unchanged — card set, normalized-name index and
search-key list all exactly as before — together with the error. -/
theorem claim_C9_reload_failure (st : CatalogState) (e : FetchError) :
    load_cards (Except.error e) st = (st, some e) := rfl

/-! ## Query parser (C2, C4) -/

/-- C2 (counterexample): for the token `"Foo (bar)"`, whose parenthetical
content is neither `u`/`U` nor an integer, `parse_level_search` does NOT
return the whole trimmed token as base — it truncates the base to `"foo"` —
and it DOES return a level filter, which makes the exact stage return all
prints instead of the single minimum-xp one: `"Foo (bar)"` resolves to both
`Foo` prints while `"Foo"` resolves to the xp-0 print only. -/
theorem claim_C2_counterexample :
    (parse_level_search "Foo (bar)").1 = "foo"
  ∧ (parse_level_search "Foo (bar)").1 ≠ pyStrip "Foo (bar)"
  ∧ (parse_level_search "Foo (bar)").1 ≠ pyToLower (pyStrip "Foo (bar)")
  ∧ (parse_level_search "Foo (bar)").2 = some ⟨"foo", "bar"⟩
  ∧ find_matching_cards zScorer (mkState fooCatalog) ["Foo (bar)"] = [fooCard0, fooCard3]
  ∧ find_matching_cards zScorer (mkState fooCatalog) ["Foo"] = [fooCard0] := by
  refine ⟨rfl, by decide, by decide, rfl, by decide, by decide⟩

/-- C2 (amended): a token ending in a parenthesized suffix whose content is
neither `u`/`U` nor a base-10 integer is still split at the parenthetical:
the returned base is the (trimmed, lowercased) text before it, and the
returned filter checks only case-insensitive containment of that base in
the card name, with no xp constraint. -/
theorem claim_C2_amended (t b : String) (lf : LevelFilter) (c : Card)
    (hp : parse_level_search t = (b, some lf))
    (hu : pyToLower lf.level ≠ "u") (hn : parsePyInt lf.level = none) :
    lf.base = b ∧ level_filter lf c = isSubstring b (pyToLower c.name) := by
  have hb : lf.base = b := by
    simp only [parse_level_search] at hp
    split at hp
    · exact absurd (congrArg Prod.snd hp) (by simp)
    · have h1 := congrArg Prod.fst hp
      have h2 := congrArg Prod.snd hp
      simp at h1 h2
      rw [← h2, h1]
  refine ⟨hb, ?_⟩
  unfold level_filter
  rw [if_neg hu, hn, hb]

/-- C2 (witness): the amended statement applied to `"Foo (bar)"` and the
xp-0 `Foo` print. -/
theorem claim_C2_witness :
    (⟨"foo", "bar"⟩ : LevelFilter).base = "foo"
  ∧ level_filter ⟨"foo", "bar"⟩ fooCard0 = isSubstring "foo" (pyToLower fooCard0.name) :=
  claim_C2_amended "Foo (bar)" "foo" ⟨"foo", "bar"⟩ fooCard0 rfl (by decide) rfl

/-- C4: the predicate built from a `(u)` qualifier holds iff xp is strictly
positive and the name contains the base case-insensitively; the predicate
built from an integer qualifier holds iff xp equals that integer and the
name contains the base; and on a catalog with `Name` prints at xp 0, 2 and
3, `"Name (2)"` resolves to exactly the xp-2 print, `"Name (u)"` to the
xp-2 and xp-3 prints, and `"Name"` to the xp-0 print only. -/
theorem claim_C4_level_filter :
    (∀ (b lvl : String) (c : Card), pyToLower lvl = "u" →
        level_filter ⟨b, lvl⟩ c
          = (isSubstring b (pyToLower c.name) && decide (0 < c.xp)))
  ∧ (∀ (b lvl : String) (n : Int) (c : Card),
        parsePyInt lvl = some n → pyToLower lvl ≠ "u" →
        level_filter ⟨b, lvl⟩ c
          = (isSubstring b (pyToLower c.name) && decide ((c.xp : Int) = n)))
  ∧ find_matching_cards zScorer (mkState nameCatalog) ["Name (2)"] = [nCard2]
  ∧ find_matching_cards zScorer (mkState nameCatalog) ["Name (u)"] = [nCard2, nCard3]
  ∧ find_matching_cards zScorer (mkState nameCatalog) ["Name"] = [nCard0] := by
  refine ⟨?_, ?_, by decide, by decide, by decide⟩
  · intro b lvl c hu
    unfold level_filter
    rw [if_pos hu]
  · intro b lvl n c hn hu
    unfold level_filter
    rw [if_neg hu, hn]

/-- C4 (witness): the filter laws applied at the xp-2 print with qualifiers
`"u"` and `"2"`. -/
theorem claim_C4_witness :
    level_filter ⟨"name", "u"⟩ nCard2
      = (isSubstring "name" (pyToLower nCard2.name) && decide (0 < nCard2.xp))
  ∧ level_filter ⟨"name", "2"⟩ nCard2
      = (isSubstring "name" (pyToLower nCard2.name) && decide ((nCard2.xp : Int) = 2)) :=
  ⟨claim_C4_level_filter.1 "name" "u" nCard2 rfl,
   claim_C4_level_filter.2.1 "name" "2" 2 nCard2 rfl (by decide)⟩


theorem foldlMin_mem : ∀ (rest : List Card) (acc : Card),
    rest.foldl (fun best d => if d.xp < best.xp then d else best) acc ∈ acc :: rest
  | [], acc => by simp
  | d :: rest, acc => by
      rw [List.foldl_cons]
      rcases List.mem_cons.1 (foldlMin_mem rest (if d.xp < acc.xp then d else acc)) with h | h
      · rw [h]
        by_cases hd : d.xp < acc.xp
        · rw [if_pos hd]
          simp
        · rw [if_neg hd]
          simp
      · simp [h]

theorem minByXp_mem (l : List Card) (c : Card) (h : minByXp l = some c) : c ∈ l := by
  match l with
  | [] => simp [minByXp] at h
  | a :: rest =>
      simp only [minByXp, Option.some.injEq] at h
      rw [← h]
      exact foldlMin_mem rest a

theorem appendAllNew_fst : ∀ (cs ms : List Card) (seen : List String),
    (∀ c ∈ cs, c.code ≠ "" ∧ c.code ∉ seen) → (cs.map Card.code).Nodup →
    (appendAllNew (ms, seen) cs).1 = ms ++ cs
  | [], ms, seen, _, _ => by simp [appendAllNew]
  | c :: rest, ms, seen, h, hnd => by
      have hc := h c (List.mem_cons_self _ _)
      have step : appendIfNew (ms, seen) c = (ms ++ [c], c.code :: seen) := by
        unfold appendIfNew
        rw [if_pos]
        exact hc
      have hrest : ∀ d ∈ rest, d.code ≠ "" ∧ d.code ∉ c.code :: seen := by
        intro d hd
        have h1 := h d (List.mem_cons_of_mem _ hd)
        refine ⟨h1.1, ?_⟩
        intro hmem
        rcases List.mem_cons.1 hmem with heq | hmem2
        · rw [List.map_cons, List.nodup_cons] at hnd
          exact hnd.1 (heq ▸ List.mem_map_of_mem Card.code hd)
        · exact h1.2 hmem2
      have hnd2 : (rest.map Card.code).Nodup :=
        (List.nodup_cons.1 (List.map_cons Card.code c rest ▸ hnd)).2
      have e1 : appendAllNew (ms, seen) (c :: rest)
          = appendAllNew (ms ++ [c], c.code :: seen) rest := by
        unfold appendAllNew
        rw [List.foldl_cons, step]
      rw [e1, appendAllNew_fst rest (ms ++ [c]) (c.code :: seen) hrest hnd2]
      simp

theorem find_single (scorer : String → String → Nat) (st : CatalogState) (q : String) :
    find_matching_cards scorer st [q] = (processToken scorer st ([], []) q).1 := rfl

theorem processToken_of_exact (scorer : String → String → Nat) (st : CatalogState)
    (acc : List Card × List String) (q : String) (hq : pyStrip q ≠ "")
    (hex : exactCandidates st.cards (_norm (parse_level_search (pyStrip q)).1)
      (parse_level_search (pyStrip q)).2 ≠ []) :
    processToken scorer st acc q
      = appendAllNew acc
          (match (parse_level_search (pyStrip q)).2 with
           | none => (minByXp (exactCandidates st.cards
               (_norm (parse_level_search (pyStrip q)).1)
               (parse_level_search (pyStrip q)).2)).toList
           | some _ => exactCandidates st.cards
               (_norm (parse_level_search (pyStrip q)).1)
               (parse_level_search (pyStrip q)).2) := by
  have hie : (exactCandidates st.cards (_norm (parse_level_search (pyStrip q)).1)
      (parse_level_search (pyStrip q)).2).isEmpty = false := by
    simpa [List.isEmpty_iff] using hex
  simp only [processToken, hq, if_false, hie, Bool.false_eq_true]

def exactsOf (cards : List Card) (q : String) : List Card :=
  exactCandidates cards (_norm (parse_level_search (pyStrip q)).1)
    (parse_level_search (pyStrip q)).2

theorem exactsOf_sublist (cards : List Card) (q : String) :
    (exactsOf cards q).Sublist cards := List.filter_sublist cards

/-- C1: when the exact stage has at least one candidate for a token, the
resolver's output for that token is determined by the exact stage alone —
all exact candidates when a qualifier was parsed, the first minimum-xp one
otherwise — and it is independent of the scorer and of the derived indexes
(substring and fuzzy stages are never consulted). -/
theorem claim_C1_exact_priority (scorer : String → String → Nat) (st : CatalogState)
    (q : String) (hq : pyStrip q ≠ "")
    (hcodes : ∀ c ∈ st.cards, c.code ≠ "")
    (hnodup : (st.cards.map Card.code).Nodup)
    (hex : exactsOf st.cards q ≠ []) :
    find_matching_cards scorer st [q]
      = (if (parse_level_search (pyStrip q)).2.isSome
         then exactsOf st.cards q
         else (minByXp (exactsOf st.cards q)).toList)
  ∧ ∀ (scorer2 : String → String → Nat) (st2 : CatalogState), st2.cards = st.cards →
      find_matching_cards scorer2 st2 [q] = find_matching_cards scorer st [q] := by
  have main : ∀ (sc : String → String → Nat) (st2 : CatalogState), st2.cards = st.cards →
      find_matching_cards sc st2 [q]
        = (if (parse_level_search (pyStrip q)).2.isSome
           then exactsOf st.cards q
           else (minByXp (exactsOf st.cards q)).toList) := by
    intro sc st2 hcards
    have hex2 : exactCandidates st2.cards (_norm (parse_level_search (pyStrip q)).1)
        (parse_level_search (pyStrip q)).2 ≠ [] := by
      rw [hcards]
      exact hex
    rw [find_single, processToken_of_exact sc st2 ([], []) q hq hex2]
    rcases hp : (parse_level_search (pyStrip q)).2 with _ | f
    · simp only [hp, Option.isSome_none, Bool.false_eq_true, if_false, exactsOf, hcards]
      rcases hm : minByXp (exactCandidates st.cards
          (_norm (parse_level_search (pyStrip q)).1) none) with _ | m
      · simp [appendAllNew]
      · have hmem : m ∈ st.cards :=
          (List.filter_sublist st.cards).mem (minByXp_mem _ _ hm)
        simp only [Option.toList_some]
        exact appendAllNew_fst [m] [] []
          (fun c hc => by
            rw [List.mem_singleton.1 hc]
            exact ⟨hcodes m hmem, by simp⟩)
          (by simp)
    · simp only [hp, Option.isSome_some, if_true, exactsOf, hcards]
      have hsub : (exactCandidates st.cards (_norm (parse_level_search (pyStrip q)).1)
          (some f)).Sublist st.cards := List.filter_sublist st.cards
      exact appendAllNew_fst _ [] []
        (fun c hc => ⟨hcodes c (hsub.mem hc), by simp⟩)
        (hnodup.sublist (hsub.map Card.code))
  exact ⟨main scorer st rfl, fun sc2 st2 h => by rw [main sc2 st2 h, main scorer st rfl]⟩

/-- C1 (witness): applied to the `Name` catalog and the token
`"Name (u)"`, the theorem computes to the two upgraded prints. -/
theorem claim_C1_witness :
    find_matching_cards zScorer (mkState nameCatalog) ["Name (u)"] = [nCard2, nCard3] :=
  (claim_C1_exact_priority zScorer (mkState nameCatalog) "Name (u)"
    (by decide) (by decide) (by decide) (by decide)).1.trans (by decide)


/-- The resolver's running invariant: every accumulated match has a
nonempty code recorded in the seen set, and accumulated codes are
pairwise distinct. -/
def SeenInv (acc : List Card × List String) : Prop :=
  (∀ c ∈ acc.1, c.code ∈ acc.2 ∧ c.code ≠ "") ∧ (acc.1.map Card.code).Nodup

theorem appendIfNew_ext (acc : List Card × List String) (c : Card) :
    ∃ ext, (appendIfNew acc c).1 = acc.1 ++ ext := by
  unfold appendIfNew
  by_cases h : c.code ≠ "" ∧ c.code ∉ acc.2
  · rw [if_pos h]
    exact ⟨[c], rfl⟩
  · rw [if_neg h]
    exact ⟨[], by simp⟩

theorem appendAllNew_ext : ∀ (cs : List Card) (acc : List Card × List String),
    ∃ ext, (appendAllNew acc cs).1 = acc.1 ++ ext
  | [], acc => ⟨[], by simp [appendAllNew]⟩
  | c :: rest, acc => by
      obtain ⟨e1, h1⟩ := appendIfNew_ext acc c
      obtain ⟨e2, h2⟩ := appendAllNew_ext rest (appendIfNew acc c)
      refine ⟨e1 ++ e2, ?_⟩
      have e3 : appendAllNew acc (c :: rest) = appendAllNew (appendIfNew acc c) rest := by
        unfold appendAllNew
        rw [List.foldl_cons]
      rw [e3, h2, h1, List.append_assoc]

theorem appendIfNew_inv (acc : List Card × List String) (c : Card) (h : SeenInv acc) :
    SeenInv (appendIfNew acc c) := by
  unfold appendIfNew
  by_cases hc : c.code ≠ "" ∧ c.code ∉ acc.2
  · rw [if_pos hc]
    constructor
    · intro d hd
      rcases List.mem_append.1 hd with hd | hd
      · have hm := h.1 d hd
        exact ⟨List.mem_cons_of_mem _ hm.1, hm.2⟩
      · rw [List.mem_singleton.1 hd]
        exact ⟨List.mem_cons_self _ _, hc.1⟩
    · rw [List.map_append]
      refine List.Nodup.append h.2 (by simp) ?_
      intro x hx hx2
      rcases List.mem_map.1 hx with ⟨d, hd, hdc⟩
      rw [List.map_singleton, List.mem_singleton] at hx2
      exact hc.2 (hx2 ▸ hdc ▸ (h.1 d hd).1)
  · rw [if_neg hc]
    exact h

theorem appendAllNew_inv : ∀ (cs : List Card) (acc : List Card × List String),
    SeenInv acc → SeenInv (appendAllNew acc cs)
  | [], acc, h => by simpa [appendAllNew] using h
  | c :: rest, acc, h => by
      have e3 : appendAllNew acc (c :: rest) = appendAllNew (appendIfNew acc c) rest := by
        unfold appendAllNew
        rw [List.foldl_cons]
      rw [e3]
      exact appendAllNew_inv rest _ (appendIfNew_inv acc c h)

theorem processToken_ext (scorer : String → String → Nat) (st : CatalogState)
    (acc : List Card × List String) (q : String) :
    ∃ ext, (processToken scorer st acc q).1 = acc.1 ++ ext := by
  simp only [processToken]
  split
  · exact ⟨[], by simp⟩
  · split
    · split
      · split
        · exact ⟨[], by simp⟩
        · apply appendIfNew_ext
      · apply appendAllNew_ext
    · apply appendAllNew_ext

theorem processToken_inv (scorer : String → String → Nat) (st : CatalogState)
    (acc : List Card × List String) (q : String) (h : SeenInv acc) :
    SeenInv (processToken scorer st acc q) := by
  simp only [processToken]
  split
  · exact h
  · split
    · split
      · split
        · exact h
        · exact appendIfNew_inv acc _ h
      · exact appendAllNew_inv _ acc h
    · exact appendAllNew_inv _ acc h

theorem foldl_processToken_ext (scorer : String → String → Nat) (st : CatalogState) :
    ∀ (queries : List String) (acc : List Card × List String),
    ∃ ext, (queries.foldl (processToken scorer st) acc).1 = acc.1 ++ ext
  | [], acc => ⟨[], by simp⟩
  | q :: rest, acc => by
      obtain ⟨e1, h1⟩ := processToken_ext scorer st acc q
      obtain ⟨e2, h2⟩ := foldl_processToken_ext scorer st rest (processToken scorer st acc q)
      refine ⟨e1 ++ e2, ?_⟩
      rw [List.foldl_cons, h2, h1, List.append_assoc]

theorem foldl_processToken_inv (scorer : String → String → Nat) (st : CatalogState) :
    ∀ (queries : List String) (acc : List Card × List String),
    SeenInv acc → SeenInv (queries.foldl (processToken scorer st) acc)
  | [], acc, h => by simpa using h
  | q :: rest, acc, h => by
      rw [List.foldl_cons]
      exact foldl_processToken_inv scorer st rest _ (processToken_inv scorer st acc q h)

/-- C5: the resolver's output never repeats a card code, and resolution is
monotone over the token list — the result for `queries ++ more` extends the
result for `queries`, so every record sits at the position of its first
match and later duplicate matches contribute nothing. -/
theorem claim_C5_dedup (scorer : String → String → Nat) (st : CatalogState)
    (queries : List String) :
    ((find_matching_cards scorer st queries).map Card.code).Nodup
  ∧ ∀ more, ∃ ext, find_matching_cards scorer st (queries ++ more)
      = find_matching_cards scorer st queries ++ ext := by
  constructor
  · exact (foldl_processToken_inv scorer st queries ([], []) ⟨by simp, by simp⟩).2
  · intro more
    obtain ⟨ext, hext⟩ := foldl_processToken_ext scorer st more
      (queries.foldl (processToken scorer st) ([], []))
    refine ⟨ext, ?_⟩
    unfold find_matching_cards
    rw [List.foldl_append, hext]


theorem extractOne_foldl : ∀ (ks : List String) (scorer : String → String → Nat)
    (q : String) (b : String × Nat), b.2 = scorer q b.1 →
    ((ks.foldl (fun best k2 => if scorer q k2 > best.2 then (k2, scorer q k2) else best) b).1
        ∈ b.1 :: ks)
  ∧ (ks.foldl (fun best k2 => if scorer q k2 > best.2 then (k2, scorer q k2) else best) b).2
      = scorer q (ks.foldl
          (fun best k2 => if scorer q k2 > best.2 then (k2, scorer q k2) else best) b).1
  | [], _, _, b, hb => ⟨List.mem_cons_self _ _, hb⟩
  | k :: ks, scorer, q, b, hb => by
      rw [List.foldl_cons]
      by_cases h : scorer q k > b.2
      · rw [if_pos h]
        have ih := extractOne_foldl ks scorer q (k, scorer q k) rfl
        exact ⟨List.mem_cons.2 (Or.inr ih.1), ih.2⟩
      · rw [if_neg h]
        have ih := extractOne_foldl ks scorer q b hb
        refine ⟨?_, ih.2⟩
        rcases List.mem_cons.1 ih.1 with h1 | h1
        · exact List.mem_cons.2 (Or.inl h1)
        · exact List.mem_cons.2 (Or.inr (List.mem_cons.2 (Or.inr h1)))

theorem extractOne_spec (scorer : String → String → Nat) (q : String) (ks : List String)
    (k : String) (sc : Nat) (h : extractOne scorer q ks = some (k, sc)) :
    k ∈ ks ∧ sc = scorer q k := by
  match ks with
  | [] => simp [extractOne] at h
  | k0 :: rest =>
      simp only [extractOne, Option.some.injEq] at h
      have hf := extractOne_foldl rest scorer q (k0, scorer q k0) rfl
      rw [h] at hf
      exact ⟨hf.1, hf.2⟩

theorem idxAppend_values : ∀ (idx : List (String × List Card)) (n : String) (c : Card)
    (kv : String × List Card), kv ∈ idxAppend idx n c → ∀ d ∈ kv.2,
    (∃ kv2 ∈ idx, d ∈ kv2.2) ∨ d = c
  | [], n, c, kv, hkv, d, hd => by
      unfold idxAppend at hkv
      rw [List.mem_singleton.1 hkv] at hd
      exact Or.inr (List.mem_singleton.1 hd)
  | (k2, vs) :: rest, n, c, kv, hkv, d, hd => by
      unfold idxAppend at hkv
      split at hkv
      · rcases List.mem_cons.1 hkv with rfl | hkv2
        · rcases List.mem_append.1 hd with h1 | h1
          · exact Or.inl ⟨(k2, vs), List.mem_cons_self _ _, h1⟩
          · exact Or.inr (List.mem_singleton.1 h1)
        · exact Or.inl ⟨kv, List.mem_cons_of_mem _ hkv2, hd⟩
      · rcases List.mem_cons.1 hkv with rfl | hkv2
        · exact Or.inl ⟨(k2, vs), List.mem_cons_self _ _, hd⟩
        · rcases idxAppend_values rest n c kv hkv2 d hd with ⟨kv2, hkv3, hd2⟩ | h2
          · exact Or.inl ⟨kv2, List.mem_cons_of_mem _ hkv3, hd2⟩
          · exact Or.inr h2

theorem buildNameIndex_values_aux : ∀ (cs : List Card) (idx : List (String × List Card))
    (P : Card → Prop),
    (∀ kv ∈ idx, ∀ d ∈ kv.2, P d) → (∀ c ∈ cs, P c) →
    ∀ kv ∈ cs.foldl
      (fun idx c => let n := _norm c.name; if n = "" then idx else idxAppend idx n c) idx,
    ∀ d ∈ kv.2, P d
  | [], idx, P, hidx, _, kv, hkv, d, hd => hidx kv hkv d hd
  | c :: rest, idx, P, hidx, hcs, kv, hkv, d, hd => by
      rw [List.foldl_cons] at hkv
      refine buildNameIndex_values_aux rest _ P ?_
        (fun c2 hc2 => hcs c2 (List.mem_cons_of_mem _ hc2)) kv hkv d hd
      intro kv2 hkv2 d2 hd2
      by_cases hn : _norm c.name = ""
      · simp only [hn, if_pos] at hkv2
        exact hidx kv2 (by simpa using hkv2) d2 hd2
      · simp only [hn, if_neg] at hkv2
        rcases idxAppend_values idx (_norm c.name) c kv2 (by simpa using hkv2) d2 hd2 with
          ⟨kv3, h3, h4⟩ | h3
        · exact hidx kv3 h3 d2 h4
        · exact h3 ▸ hcs c (List.mem_cons_self _ _)

theorem buildNameIndex_values (cards : List Card) (kv : String × List Card)
    (hkv : kv ∈ buildNameIndex cards) : ∀ d ∈ kv.2, d ∈ cards :=
  buildNameIndex_values_aux cards [] (fun d => d ∈ cards)
    (by intro kv2 h; simp at h) (fun c h => h) kv hkv

theorem lookupIdx_mem : ∀ (idx : List (String × List Card)) (k : String) (vs : List Card),
    lookupIdx idx k = some vs → (k, vs) ∈ idx
  | [], k, vs, h => by simp [lookupIdx] at h
  | (k2, vs2) :: rest, k, vs, h => by
      unfold lookupIdx at h
      split at h
      · next heq =>
          simp only [Option.some.injEq] at h
          rw [← h, ← heq]
          exact List.mem_cons_self _ _
      · exact List.mem_cons_of_mem _ (lookupIdx_mem rest k vs h)

/-- The fuzzy stage's print-variant list for a best key: the key's full
normalized-name index entry, filtered by the level filter when one was
parsed. -/
def variantsOf (cards : List Card) (k : String) (lf : Option LevelFilter) : List Card :=
  match lf with
  | none => (lookupIdx (buildNameIndex cards) k).getD []
  | some f => ((lookupIdx (buildNameIndex cards) k).getD []).filter (level_filter f)

theorem variantsOf_mem (cards : List Card) (k : String) (lf : Option LevelFilter)
    (d : Card) (hd : d ∈ variantsOf cards k lf) : d ∈ cards := by
  have core : ∀ e ∈ (lookupIdx (buildNameIndex cards) k).getD [], e ∈ cards := by
    intro e he
    rcases hl : lookupIdx (buildNameIndex cards) k with _ | vs
    · rw [hl] at he
      simp at he
    · rw [hl] at he
      simp at he
      exact buildNameIndex_values cards (k, vs) (lookupIdx_mem _ k vs hl) e he
  rcases lf with _ | f
  · exact core d hd
  · exact core d ((List.filter_sublist _).mem hd)

theorem processToken_of_fuzzy (scorer : String → String → Nat) (st : CatalogState)
    (acc : List Card × List String) (q : String) (hq : pyStrip q ≠ "")
    (hex : exactCandidates st.cards (_norm (parse_level_search (pyStrip q)).1)
      (parse_level_search (pyStrip q)).2 = [])
    (hpool : substringPool st.cards (parse_level_search (pyStrip q)).1
      (parse_level_search (pyStrip q)).2 = []) :
    processToken scorer st acc q
      = (match fuzzyPick scorer st (_norm (parse_level_search (pyStrip q)).1)
            (parse_level_search (pyStrip q)).2 with
         | none => acc
         | some pick => appendIfNew acc pick) := by
  have h1 : (exactCandidates st.cards (_norm (parse_level_search (pyStrip q)).1)
      (parse_level_search (pyStrip q)).2).isEmpty = true := by
    rw [hex]
    rfl
  have h2 : (substringPool st.cards (parse_level_search (pyStrip q)).1
      (parse_level_search (pyStrip q)).2).isEmpty = true := by
    rw [hpool]
    rfl
  simp only [processToken, hq, if_false, h1, h2, if_true]

theorem fuzzyPick_of_best (scorer : String → String → Nat) (cards : List Card)
    (bn : String) (lf : Option LevelFilter) (k : String) (sc : Nat)
    (hbest : extractOne scorer bn (mkState cards).keys = some (k, sc)) (h80 : 80 ≤ sc) :
    fuzzyPick scorer (mkState cards) bn lf = minByXp (variantsOf cards k lf) := by
  unfold fuzzyPick
  rw [hbest]
  show (if 80 ≤ sc then _ else none) = _
  rw [if_pos h80]
  rcases lf with _ | f
  · rfl
  · rfl

theorem fuzzyPick_of_low (scorer : String → String → Nat) (cards : List Card)
    (bn : String) (lf : Option LevelFilter)
    (hlow : ∀ k ∈ (mkState cards).keys, scorer bn k < 80) :
    fuzzyPick scorer (mkState cards) bn lf = none := by
  unfold fuzzyPick
  rcases hbest : extractOne scorer bn (mkState cards).keys with _ | p
  · rfl
  · obtain ⟨hkmem, hksc⟩ := extractOne_spec scorer bn (mkState cards).keys p.1 p.2
      (by rw [hbest])
    show (if 80 ≤ p.2 then _ else none) = none
    rw [if_neg (by have := hlow p.1 hkmem; omega)]

/-- C3: if neither the exact nor the substring stage produced anything and
the best search key (first of maximal token-set score) reaches the
threshold 80, the resolver appends exactly the minimum-xp record among that
key's print variants passing the qualifier predicate when one was given
(nothing if no variant passes); if every key scores strictly below 80, the
token contributes nothing. -/
theorem claim_C3_fuzzy (scorer : String → String → Nat) (cards : List Card) (q : String)
    (hq : pyStrip q ≠ "")
    (hcodes : ∀ c ∈ cards, c.code ≠ "")
    (hex : exactsOf cards q = [])
    (hpool : substringPool cards (parse_level_search (pyStrip q)).1
      (parse_level_search (pyStrip q)).2 = []) :
    (∀ (k : String) (sc : Nat),
        extractOne scorer (_norm (parse_level_search (pyStrip q)).1)
          (mkState cards).keys = some (k, sc) → 80 ≤ sc →
        find_matching_cards scorer (mkState cards) [q]
          = (minByXp (variantsOf cards k (parse_level_search (pyStrip q)).2)).toList)
  ∧ ((∀ k ∈ (mkState cards).keys,
        scorer (_norm (parse_level_search (pyStrip q)).1) k < 80) →
      find_matching_cards scorer (mkState cards) [q] = []) := by
  have hbase : ∀ pick,
      fuzzyPick scorer (mkState cards) (_norm (parse_level_search (pyStrip q)).1)
        (parse_level_search (pyStrip q)).2 = pick →
      find_matching_cards scorer (mkState cards) [q]
        = (match pick with
           | none => (([] : List Card), ([] : List String))
           | some pick => appendIfNew ([], []) pick).1 := by
    intro pick hpick
    rw [find_single, processToken_of_fuzzy scorer (mkState cards) ([], []) q hq hex hpool,
      hpick]
  constructor
  · intro k sc hbest h80
    have hfp := fuzzyPick_of_best scorer cards
      (_norm (parse_level_search (pyStrip q)).1) (parse_level_search (pyStrip q)).2
      k sc hbest h80
    rw [hbase _ hfp]
    rcases hm : minByXp (variantsOf cards k (parse_level_search (pyStrip q)).2) with _ | pick
    · rfl
    · have hmem : pick ∈ cards := variantsOf_mem cards k _ pick (minByXp_mem _ _ hm)
      show (appendIfNew ([], []) pick).1 = [pick]
      unfold appendIfNew
      rw [if_pos ⟨hcodes pick hmem, by simp⟩]
      simp
  · intro hlow
    have hfp := fuzzyPick_of_low scorer cards
      (_norm (parse_level_search (pyStrip q)).1) (parse_level_search (pyStrip q)).2 hlow
    rw [hbase _ hfp]

/-- C3 (witness): against the `Lucky!` catalog and the fuzzy token
`"lucke"`, a scorer rating the key `"lucky"` at exactly 80 yields the xp-0
print, and one rating it at exactly 79 yields nothing. -/
theorem claim_C3_witness :
    find_matching_cards scorer80 (mkState luckyCatalog) ["lucke"] = [luckyCard0]
  ∧ find_matching_cards scorer79 (mkState luckyCatalog) ["lucke"] = [] := by
  constructor
  · exact ((claim_C3_fuzzy scorer80 luckyCatalog "lucke" (by decide) (by decide) (by decide)
      (by decide)).1 "lucky" 80 (by decide) (by decide)).trans (by decide)
  · exact (claim_C3_fuzzy scorer79 luckyCatalog "lucke" (by decide) (by decide) (by decide)
      (by decide)).2 (by decide)


theorem isSubstring_empty : ∀ (hay : List Char), subList [] hay = true
  | [] => rfl
  | _ :: hs => by
      unfold subList
      rw [isSubstring_empty hs]
      simp [startsList]

theorem updatePool_ne_nil : ∀ (m : List (String × Card)) (k : String) (c : Card),
    updatePool m k c ≠ []
  | [], k, c => by simp [updatePool]
  | (k2, cur) :: rest, k, c => by
      unfold updatePool
      split
      · simp
      · simp

theorem updatePool_mem : ∀ (m : List (String × Card)) (k : String) (c : Card)
    (kv : String × Card), kv ∈ updatePool m k c → kv ∈ m ∨ kv = (k, c)
  | [], k, c, kv, h => by
      unfold updatePool at h
      exact Or.inr (List.mem_singleton.1 h)
  | (k2, cur) :: rest, k, c, kv, h => by
      unfold updatePool at h
      split at h
      · next heq =>
          rcases List.mem_cons.1 h with h1 | h1
          · by_cases hxp : c.xp < cur.xp
            · rw [if_pos hxp] at h1
              exact Or.inr (by rw [h1, heq])
            · rw [if_neg hxp] at h1
              exact Or.inl (h1 ▸ List.mem_cons_self _ _)
          · exact Or.inl (List.mem_cons_of_mem _ h1)
      · rcases List.mem_cons.1 h with h1 | h1
        · exact Or.inl (h1 ▸ List.mem_cons_self _ _)
        · rcases updatePool_mem rest k c kv h1 with h2 | h2
          · exact Or.inl (List.mem_cons_of_mem _ h2)
          · exact Or.inr h2

theorem updatePool_keys : ∀ (m : List (String × Card)) (k : String) (c : Card),
    (updatePool m k c).map Prod.fst
      = if k ∈ m.map Prod.fst then m.map Prod.fst else m.map Prod.fst ++ [k]
  | [], k, c => by simp [updatePool]
  | (k2, cur) :: rest, k, c => by
      unfold updatePool
      by_cases heq : k2 = k
      · rw [if_pos heq]
        have hk : k ∈ ((k2, cur) :: rest).map Prod.fst := by
          simp [heq]
        rw [if_pos hk]
        by_cases hxp : c.xp < cur.xp
        · simp [hxp]
        · simp [hxp]
      · rw [if_neg heq]
        have hrec := updatePool_keys rest k c
        by_cases hk : k ∈ rest.map Prod.fst
        · have hk2 : k ∈ ((k2, cur) :: rest).map Prod.fst := by
            simp
            exact Or.inr (by simpa using hk)
          rw [if_pos hk2]
          simp only [List.map_cons, hrec, if_pos hk]
        · have hk2 : k ∉ ((k2, cur) :: rest).map Prod.fst := by
            simp
            exact ⟨fun h => heq h.symm, by simpa using hk⟩
          rw [if_neg hk2]
          simp only [List.map_cons, hrec, if_neg hk]
          rfl

theorem poolFold_mem (base : String) (lf : Option LevelFilter) :
    ∀ (cs : List Card) (m : List (String × Card)) (kv : String × Card),
    kv ∈ cs.foldl (fun m c => if poolCond base lf c then updatePool m (_norm c.name) c else m) m →
    kv ∈ m ∨ (kv.2 ∈ cs ∧ poolCond base lf kv.2 = true ∧ kv.1 = _norm kv.2.name)
  | [], m, kv, h => Or.inl h
  | c :: rest, m, kv, h => by
      rw [List.foldl_cons] at h
      rcases poolFold_mem base lf rest _ kv h with h1 | h1
      · by_cases hc : poolCond base lf c = true
        · rw [if_pos hc] at h1
          rcases updatePool_mem m (_norm c.name) c kv h1 with h2 | h2
          · exact Or.inl h2
          · refine Or.inr ⟨?_, ?_, ?_⟩
            · rw [h2]
              exact List.mem_cons_self _ _
            · rw [h2]
              exact hc
            · rw [h2]
        · rw [if_neg hc] at h1
          exact Or.inl h1
      · exact Or.inr ⟨List.mem_cons_of_mem _ h1.1, h1.2⟩

theorem poolFold_keys_nodup (base : String) (lf : Option LevelFilter) :
    ∀ (cs : List Card) (m : List (String × Card)), (m.map Prod.fst).Nodup →
    ((cs.foldl (fun m c => if poolCond base lf c then updatePool m (_norm c.name) c else m)
      m).map Prod.fst).Nodup
  | [], m, h => h
  | c :: rest, m, h => by
      rw [List.foldl_cons]
      refine poolFold_keys_nodup base lf rest _ ?_
      by_cases hc : poolCond base lf c = true
      · rw [if_pos hc, updatePool_keys]
        by_cases hk : _norm c.name ∈ m.map Prod.fst
        · rw [if_pos hk]
          exact h
        · rw [if_neg hk]
          rw [List.nodup_append]
          refine ⟨h, List.nodup_singleton _, ?_⟩
          intro a ha hb
          rw [List.mem_singleton] at hb
          exact hk (hb ▸ ha)
      · rw [if_neg hc]
        exact h

theorem poolFold_keys_mono (base : String) (lf : Option LevelFilter) :
    ∀ (cs : List Card) (m : List (String × Card)) (k : String), k ∈ m.map Prod.fst →
    k ∈ ((cs.foldl (fun m c => if poolCond base lf c then updatePool m (_norm c.name) c else m)
      m).map Prod.fst)
  | [], m, k, h => h
  | c :: rest, m, k, h => by
      rw [List.foldl_cons]
      refine poolFold_keys_mono base lf rest _ k ?_
      by_cases hc : poolCond base lf c = true
      · rw [if_pos hc, updatePool_keys]
        by_cases hk : _norm c.name ∈ m.map Prod.fst
        · rw [if_pos hk]
          exact h
        · rw [if_neg hk]
          exact List.mem_append.2 (Or.inl h)
      · rw [if_neg hc]
        exact h

theorem poolFold_covers (base : String) (lf : Option LevelFilter) :
    ∀ (cs : List Card) (m : List (String × Card)) (c : Card), c ∈ cs →
    poolCond base lf c = true →
    _norm c.name ∈ ((cs.foldl
      (fun m c => if poolCond base lf c then updatePool m (_norm c.name) c else m)
      m).map Prod.fst)
  | [], m, c, hc, _ => by simp at hc
  | c2 :: rest, m, c, hc, hcond => by
      rw [List.foldl_cons]
      rcases List.mem_cons.1 hc with rfl | hc2
      · refine poolFold_keys_mono base lf rest _ (_norm c.name) ?_
        rw [if_pos hcond, updatePool_keys]
        by_cases hk : _norm c.name ∈ m.map Prod.fst
        · rw [if_pos hk]
          exact hk
        · rw [if_neg hk]
          exact List.mem_append.2 (Or.inr (List.mem_singleton_self _))
      · exact poolFold_covers base lf rest _ c hc2 hcond

theorem poolFold_nil (base : String) (lf : Option LevelFilter) :
    ∀ (cs : List Card) (m : List (String × Card)),
    cs.foldl (fun m c => if poolCond base lf c then updatePool m (_norm c.name) c else m) m
      = [] →
    m = [] ∧ ∀ c ∈ cs, poolCond base lf c = false
  | [], m, h => ⟨h, by simp⟩
  | c :: rest, m, h => by
      rw [List.foldl_cons] at h
      obtain ⟨hstep, hrest⟩ := poolFold_nil base lf rest _ h
      by_cases hc : poolCond base lf c = true
      · rw [if_pos hc] at hstep
        exact absurd hstep (updatePool_ne_nil m (_norm c.name) c)
      · rw [if_neg hc] at hstep
        refine ⟨hstep, ?_⟩
        intro d hd
        rcases List.mem_cons.1 hd with rfl | hd2
        · exact Bool.not_eq_true _ ▸ (by simpa using hc)
        · exact hrest d hd2

theorem substringPool_values_nodup (cards : List Card) (base : String)
    (lf : Option LevelFilter) (hnodup : (cards.map Card.code).Nodup) :
    (((substringPool cards base lf).map Prod.snd).map Card.code).Nodup := by
  have hkeys : ((substringPool cards base lf).map Prod.fst).Nodup :=
    poolFold_keys_nodup base lf cards [] (by simp)
  have hmem : ∀ kv ∈ substringPool cards base lf,
      kv.2 ∈ cards ∧ kv.1 = _norm kv.2.name := by
    intro kv h
    rcases poolFold_mem base lf cards [] kv h with h1 | h1
    · simp at h1
    · exact ⟨h1.1, h1.2.2⟩
  have hpw : (substringPool cards base lf).Pairwise (fun a b => a.1 ≠ b.1) :=
    List.pairwise_map.1 hkeys
  rw [List.map_map]
  refine List.pairwise_map.2 (hpw.imp_of_mem ?_)
  intro a b ha hb hne heq
  have hinj := List.inj_on_of_nodup_map hnodup
  have hab : a.2 = b.2 := hinj (hmem a ha).1 (hmem b hb).1 heq
  exact hne (((hmem a ha).2.trans (by rw [hab])).trans (hmem b hb).2.symm)

theorem processToken_of_substring (scorer : String → String → Nat) (st : CatalogState)
    (acc : List Card × List String) (q : String) (hq : pyStrip q ≠ "")
    (hex : exactCandidates st.cards (_norm (parse_level_search (pyStrip q)).1)
      (parse_level_search (pyStrip q)).2 = [])
    (hpool : substringPool st.cards (parse_level_search (pyStrip q)).1
      (parse_level_search (pyStrip q)).2 ≠ []) :
    processToken scorer st acc q
      = appendAllNew acc ((substringPool st.cards (parse_level_search (pyStrip q)).1
          (parse_level_search (pyStrip q)).2).map Prod.snd) := by
  have h1 : (exactCandidates st.cards (_norm (parse_level_search (pyStrip q)).1)
      (parse_level_search (pyStrip q)).2).isEmpty = true := by
    rw [hex]
    rfl
  have h2 : (substringPool st.cards (parse_level_search (pyStrip q)).1
      (parse_level_search (pyStrip q)).2).isEmpty = false := by
    simpa [List.isEmpty_iff] using hpool
  simp only [processToken, hq, if_false, h1, h2, if_true, Bool.false_eq_true]

theorem fuzzyPick_filtered_none (scorer : String → String → Nat) (cards : List Card)
    (bn : String) (f : LevelFilter)
    (hall : ∀ c ∈ cards, level_filter f c = false) :
    fuzzyPick scorer (mkState cards) bn (some f) = none := by
  unfold fuzzyPick
  rcases hbest : extractOne scorer bn (mkState cards).keys with _ | ⟨k, sc⟩
  · rfl
  · show (if 80 ≤ sc then _ else none) = none
    by_cases h80 : 80 ≤ sc
    · rw [if_pos h80]
      have hnilf : ((lookupIdx (mkState cards).index k).getD []).filter (level_filter f)
          = [] := by
        refine List.filter_eq_nil_iff.2 ?_
        intro e he
        have hec : e ∈ cards := variantsOf_mem cards k none e he
        simp [hall e hec]
      show minByXp (((lookupIdx (mkState cards).index k).getD []).filter (level_filter f))
          = none
      rw [hnilf]
      rfl
    · rw [if_neg h80]

/-- C10: for a token that is only a qualifier (empty parsed base), provided
no catalog record normalizes to the empty name, the exact stage finds
nothing and the substring stage supplies the whole result: one lowest-xp
record per distinct normalized name among the records passing the level
filter (the empty base is contained in every name), every kept record
passes the filter, and every catalog record passing the filter is
represented by a kept record of the same normalized name — the token
matches everything at the requested level, not nothing. -/
theorem claim_C10_empty_base (scorer : String → String → Nat) (cards : List Card)
    (q : String) (lf : LevelFilter)
    (hq : pyStrip q ≠ "")
    (hparse : parse_level_search (pyStrip q) = ("", some lf))
    (hnonorm : ∀ c ∈ cards, _norm c.name ≠ "")
    (hcodes : ∀ c ∈ cards, c.code ≠ "")
    (hnodup : (cards.map Card.code).Nodup) :
    find_matching_cards scorer (mkState cards) [q]
      = (substringPool cards "" (some lf)).map Prod.snd
  ∧ (∀ kv ∈ substringPool cards "" (some lf),
      level_filter lf kv.2 = true ∧ _norm kv.2.name = kv.1)
  ∧ ∀ c ∈ cards, level_filter lf c = true →
      ∃ d ∈ (substringPool cards "" (some lf)).map Prod.snd,
        _norm d.name = _norm c.name ∧ level_filter lf d = true := by
  have hcond : ∀ c : Card, poolCond "" (some lf) c = level_filter lf c := by
    intro c
    unfold poolCond matchesLf
    rw [show isSubstring "" (pyToLower c.name) = subList [] (pyToLower c.name).data from rfl,
      isSubstring_empty]
    simp
  have hex : exactsOf cards q = [] := by
    unfold exactsOf exactCandidates
    rw [hparse]
    refine List.filter_eq_nil_iff.2 ?_
    intro c hc
    have h := hnonorm c hc
    simp only [show _norm "" = "" from rfl]
    simp [h]
  have hprops : ∀ kv ∈ substringPool cards "" (some lf),
      kv.2 ∈ cards ∧ level_filter lf kv.2 = true ∧ kv.1 = _norm kv.2.name := by
    intro kv hkv
    rcases poolFold_mem "" (some lf) cards [] kv hkv with h1 | h1
    · simp at h1
    · exact ⟨h1.1, (hcond kv.2) ▸ h1.2.1, h1.2.2⟩
  have hmain : find_matching_cards scorer (mkState cards) [q]
      = (substringPool cards "" (some lf)).map Prod.snd := by
    by_cases hpool : substringPool cards "" (some lf) = []
    · have hall : ∀ c ∈ cards, level_filter lf c = false := by
        intro c hc
        have h := (poolFold_nil "" (some lf) cards [] hpool).2 c hc
        rw [hcond] at h
        exact h
      have hpool2 : substringPool cards (parse_level_search (pyStrip q)).1
          (parse_level_search (pyStrip q)).2 = [] := by
        rw [hparse]
        exact hpool
      rw [find_single, processToken_of_fuzzy scorer (mkState cards) ([], []) q hq hex hpool2]
      have hfz : fuzzyPick scorer (mkState cards)
          (_norm (parse_level_search (pyStrip q)).1)
          (parse_level_search (pyStrip q)).2 = none := by
        rw [hparse]
        exact fuzzyPick_filtered_none scorer cards (_norm "") lf hall
      rw [hfz, hpool]
      rfl
    · have hpool2 : substringPool cards (parse_level_search (pyStrip q)).1
          (parse_level_search (pyStrip q)).2 ≠ [] := by
        rw [hparse]
        exact hpool
      rw [find_single, processToken_of_substring scorer (mkState cards) ([], []) q hq hex
        hpool2]
      have e1 : substringPool (mkState cards).cards (parse_level_search (pyStrip q)).1
          (parse_level_search (pyStrip q)).2 = substringPool cards "" (some lf) := by
        rw [hparse]
        rfl
      rw [e1]
      refine appendAllNew_fst _ [] [] ?_
        (substringPool_values_nodup cards "" (some lf) hnodup)
      intro c hc
      obtain ⟨kv, hkv, hsnd⟩ := List.mem_map.1 hc
      exact ⟨hcodes c (hsnd ▸ (hprops kv hkv).1), by simp⟩
  refine ⟨hmain, fun kv hkv => ⟨(hprops kv hkv).2.1, (hprops kv hkv).2.2.symm⟩, ?_⟩
  intro c hc hlf
  have hkey : _norm c.name ∈ (substringPool cards "" (some lf)).map Prod.fst :=
    poolFold_covers "" (some lf) cards [] c hc (by rw [hcond]; exact hlf)
  obtain ⟨kv, hkv, hfst⟩ := List.mem_map.1 hkey
  refine ⟨kv.2, List.mem_map_of_mem Prod.snd hkv, ?_, (hprops kv hkv).2.1⟩
  rw [← (hprops kv hkv).2.2, hfst]

/-- C10 (witness): the qualifier-only token `"(2)"` against the `Name`
catalog resolves to the xp-2 print via the substring stage. -/
theorem claim_C10_witness :
    find_matching_cards zScorer (mkState nameCatalog) ["(2)"] = [nCard2] :=
  ((claim_C10_empty_base zScorer nameCatalog "(2)" ⟨"", "2"⟩ (by decide) (by decide)
    (by decide) (by decide) (by decide)).1).trans (by decide)


/-- C7: a resolved deck card lands in the Permanent category iff its
permanent flag is set, regardless of type; every other category holds
exactly the non-permanent cards of its type code; and when the deck holds
no non-permanent skill-typed card, the composed output is identical to a
composition that skips the Skill category entirely — no Skills Section is
produced. -/
theorem claim_C7_categories (cards : List Card) (deck : Deck) :
    (∀ c ∈ deckCards cards deck,
        (c ∈ catCardsFor "Permanent" (deckCards cards deck) ↔ c.permanent = true))
  ∧ (∀ cat ∈ (["Asset", "Event", "Skill", "Treachery", "Enemy"] : List String),
        ∀ c ∈ deckCards cards deck,
        (c ∈ catCardsFor cat (deckCards cards deck)
          ↔ c.permanent = false ∧ c.type_code = pyToLower cat))
  ∧ ((∀ c ∈ deckCards cards deck, c.type_code = "skill" → c.permanent = true) →
      build_deck_embeds cards deck
        = deckHeader cards deck
          :: deckSectionsOver ["Asset", "Permanent", "Event", "Treachery", "Enemy"]
               deck.slots (deckCards cards deck)) := by
  refine ⟨?_, ?_, ?_⟩
  · intro c hc
    simp [catCardsFor, List.mem_filter, hc]
  · intro cat hcat c hc
    fin_cases hcat <;>
      simp [catCardsFor, List.mem_filter, hc, pyToLower, and_comm]
  · intro hskill
    have hnil : catCardsFor "Skill" (deckCards cards deck) = [] := by
      unfold catCardsFor
      rw [if_neg (by decide)]
      refine List.filter_eq_nil_iff.2 ?_
      intro c hc hcond
      simp only [Bool.and_eq_true, beq_iff_eq, Bool.not_eq_true'] at hcond
      have hp := hskill c hc (hcond.1.trans rfl)
      rw [hp] at hcond
      exact absurd hcond.2 (by simp)
    have hsec : categorySection "Skill" deck.slots
        (catCardsFor "Skill" (deckCards cards deck)) = [] := by
      rw [hnil]
      rfl
    unfold build_deck_embeds
    unfold deckSectionsOver categories
    simp only [List.map_cons, List.map_nil, hsec, List.flatten]
    simp

theorem lexLtN_trans : ∀ (a b c : List Nat),
    lexLtN a b = true → lexLtN b c = true → lexLtN a c = true
  | [], [], _, hab, _ => by simp [lexLtN] at hab
  | [], _ :: _, [], _, hbc => by simp [lexLtN] at hbc
  | [], _ :: _, _ :: _, _, _ => rfl
  | _ :: _, [], _, hab, _ => by simp [lexLtN] at hab
  | _ :: _, _ :: _, [], _, hbc => by simp [lexLtN] at hbc
  | a :: as, b :: bs, c :: cs, hab, hbc => by
      unfold lexLtN at hab hbc ⊢
      by_cases h1 : a < b
      · rw [if_pos h1] at hab
        by_cases h2 : b < c
        · rw [if_pos (by omega : a < c)]
        · rw [if_neg h2] at hbc
          by_cases h3 : b = c
          · rw [if_pos (by omega : a < c)]
          · rw [if_neg h3] at hbc
            simp at hbc
      · rw [if_neg h1] at hab
        by_cases h4 : a = b
        · rw [if_pos h4] at hab
          by_cases h2 : b < c
          · rw [if_pos (by omega : a < c)]
          · rw [if_neg h2] at hbc
            by_cases h3 : b = c
            · rw [if_pos h3] at hbc
              rw [if_neg (by omega : ¬ a < c), if_pos (by omega : a = c)]
              exact lexLtN_trans as bs cs hab hbc
            · rw [if_neg h3] at hbc
              simp at hbc
        · rw [if_neg h4] at hab
          simp at hab

theorem lexLtN_conn : ∀ (a b : List Nat),
    lexLtN a b = false → lexLtN b a = false → a = b
  | [], [], _, _ => rfl
  | [], _ :: _, hab, _ => by simp [lexLtN] at hab
  | _ :: _, [], _, hba => by simp [lexLtN] at hba
  | a :: as, b :: bs, hab, hba => by
      unfold lexLtN at hab hba
      by_cases h1 : a < b
      · rw [if_pos h1] at hab
        simp at hab
      · rw [if_neg h1] at hab
        by_cases h2 : b < a
        · rw [if_pos h2] at hba
          simp at hba
        · rw [if_neg h2] at hba
          have h4 : a = b := by omega
          rw [if_pos h4] at hab
          rw [if_pos (by omega : b = a)] at hba
          rw [h4, lexLtN_conn as bs hab hba]

theorem lexLtN_asymm : ∀ (a b : List Nat),
    lexLtN a b = true → lexLtN b a = false
  | [], [], hab => by simp [lexLtN] at hab
  | [], _ :: _, _ => rfl
  | _ :: _, [], hab => by simp [lexLtN] at hab
  | a :: as, b :: bs, hab => by
      unfold lexLtN at hab ⊢
      by_cases h1 : a < b
      · rw [if_neg (by omega : ¬ b < a), if_neg (by omega : ¬ b = a)]
      · rw [if_neg h1] at hab
        by_cases h2 : a = b
        · rw [if_pos h2] at hab
          rw [if_neg (by omega : ¬ b < a), if_pos (by omega : b = a)]
          exact lexLtN_asymm as bs hab
        · rw [if_neg h2] at hab
          simp at hab

instance : IsTotal Card slotLe where
  total a b := by
    unfold slotLe pyStrLt
    rcases Bool.eq_false_or_eq_true
        (lexLtN (codePts (slotKey b)) (codePts (slotKey a))) with h | h
    · exact Or.inr (lexLtN_asymm _ _ h)
    · exact Or.inl h

instance : IsTrans Card slotLe where
  trans a b c hab hbc := by
    unfold slotLe pyStrLt at hab hbc ⊢
    rcases Bool.eq_false_or_eq_true
        (lexLtN (codePts (slotKey c)) (codePts (slotKey a))) with h | h
    · rcases Bool.eq_false_or_eq_true
          (lexLtN (codePts (slotKey b)) (codePts (slotKey c))) with h2 | h2
      · have h3 := lexLtN_trans _ _ _ h2 h
        rw [hab] at h3
        exact absurd h3 (by simp)
      · have h3 := lexLtN_conn _ _ h2 hbc
        rw [← h3] at h
        rw [hab] at h
        exact absurd h (by simp)
    · exact h

theorem assetParts_runs (slots : List (String × Nat)) :
    ∀ (cs : List Card) (last : Option String),
    assetPartsAux slots cs last
      = (match slotRuns cs with
         | [] => []
         | (s, run) :: more =>
             if last = some s
             then run.map (fun c => "- " ++ lineOf slots c) ++ renderRuns slots more
             else ("\n**" ++ s ++ ":**")
                    :: (run.map (fun c => "- " ++ lineOf slots c) ++ renderRuns slots more))
  | [], last => rfl
  | c :: rest, last => by
      have ih := assetParts_runs slots rest
      rcases hrr : slotRuns rest with _ | ⟨⟨s2, run⟩, more⟩
      · have hrun : slotRuns (c :: rest) = [(c.slot.getD "Other", [c])] := by
          unfold slotRuns
          rw [hrr]
        have ihA : assetPartsAux slots rest (some (c.slot.getD "Other")) = [] := by
          have t := ih (some (c.slot.getD "Other"))
          rw [hrr] at t
          exact t
        have ihB : assetPartsAux slots rest last = [] := by
          have t := ih last
          rw [hrr] at t
          exact t
        by_cases hl : last = some (c.slot.getD "Other") <;>
          simp [assetPartsAux, hrun, hl, ihA, ihB, renderRuns]
      · by_cases hseq : c.slot.getD "Other" = s2
        · have hrun : slotRuns (c :: rest) = (c.slot.getD "Other", c :: run) :: more := by
            unfold slotRuns
            rw [hrr]
            simp [hseq]
          have ihS : assetPartsAux slots rest (some (c.slot.getD "Other"))
              = run.map (fun c => "- " ++ lineOf slots c) ++ renderRuns slots more := by
            have t := ih (some (c.slot.getD "Other"))
            rw [hrr] at t
            simpa [hseq] using t
          by_cases hl : last = some (c.slot.getD "Other") <;>
            simp [assetPartsAux, hrun, hl, ihS, renderRuns]
        · have hrun : slotRuns (c :: rest)
              = (c.slot.getD "Other", [c]) :: (s2, run) :: more := by
            unfold slotRuns
            rw [hrr]
            simp [hseq]
          have ihS : assetPartsAux slots rest (some (c.slot.getD "Other"))
              = ("\n**" ++ s2 ++ ":**")
                  :: (run.map (fun c => "- " ++ lineOf slots c) ++ renderRuns slots more) := by
            have t := ih (some (c.slot.getD "Other"))
            rw [hrr] at t
            simpa [hseq] using t
          by_cases hl : last = some (c.slot.getD "Other") <;>
            simp [assetPartsAux, hrun, hl, ihS, renderRuns]

theorem assetParts_eq_runsRender (slots : List (String × Nat)) (cs : List Card) :
    assetPartsAux slots cs none = runsRender slots cs := by
  have h := assetParts_runs slots cs none
  rcases hrr : slotRuns cs with _ | ⟨⟨s, run⟩, more⟩
  · rw [hrr] at h
    rw [h]
    simp [runsRender, renderRuns, hrr]
  · rw [hrr] at h
    simp only [reduceCtorEq, if_neg] at h
    rw [h]
    simp [runsRender, renderRuns, hrr]

/-- C7 (witness): on a deck whose only skill-typed card is permanent, the
composition equals the Skill-free composition. -/
theorem claim_C7_witness :
    build_deck_embeds skillFreeCards skillFreeDeck
      = deckHeader skillFreeCards skillFreeDeck
        :: deckSectionsOver ["Asset", "Permanent", "Event", "Treachery", "Enemy"]
             skillFreeDeck.slots (deckCards skillFreeCards skillFreeDeck) :=
  (claim_C7_categories skillFreeCards skillFreeDeck).2.2 (by decide)

/-- C8: the Asset category's cards are stably sorted ascending by slot key
(absent slots keyed by the `"zzzzzz"` sentinel); when every real slot name
lexically precedes the sentinel, every slotless card lands after every
slotted one; the rendered Asset body equals the run-structured rendering —
one slot sub-heading per maximal run of consecutive same-slot cards; and
non-Asset categories render one line per card in catalog-resolution
order. -/
theorem claim_C8_asset_order (slots : List (String × Nat)) (cat_cards : List Card) :
    List.Pairwise slotLe (sortBySlot cat_cards)
  ∧ ((∀ c ∈ cat_cards, c.slot.all (fun s => pyStrLt s "zzzzzz") = true) →
      List.Pairwise (fun a b => a.slot = none → b.slot = none) (sortBySlot cat_cards))
  ∧ assetPartsAux slots (sortBySlot cat_cards) none
      = runsRender slots (sortBySlot cat_cards)
  ∧ plainParts slots cat_cards = cat_cards.map (fun c => "- " ++ lineOf slots c) := by
  refine ⟨List.sorted_insertionSort slotLe cat_cards, ?_,
    assetParts_eq_runsRender slots _, rfl⟩
  intro h
  have hs : List.Pairwise slotLe (sortBySlot cat_cards) :=
    List.sorted_insertionSort slotLe cat_cards
  refine hs.imp_of_mem ?_
  intro a b ha hb hle hnone
  rcases hb2 : b.slot with _ | s
  · rfl
  · exfalso
    have hbmem : b ∈ cat_cards :=
      (List.perm_insertionSort slotLe cat_cards).subset hb
    have hlt : pyStrLt s "zzzzzz" = true := by
      have hx := h b hbmem
      rw [hb2] at hx
      simpa [Option.all] using hx
    unfold slotLe at hle
    rw [show slotKey a = "zzzzzz" from by unfold slotKey; rw [hnone]; rfl,
      show slotKey b = s from by unfold slotKey; rw [hb2]; rfl] at hle
    exact absurd hlt (by rw [hle]; simp)

/-- C8 (witness): on the Hand / no-slot / Ally fixture, whose real slots
all precede the sentinel, the sorted Asset list places the slotless card
last. -/
theorem claim_C8_witness :
    List.Pairwise (fun a b => a.slot = none → b.slot = none) (sortBySlot assetCards) :=
  (claim_C8_asset_order [] assetCards).2.1 (by decide)

end AgentOfTheKing
